import Mathlib

/-!
Verification of the k-means compute kernels of `josh.meanings`
(`src/kernels/min_index.c`, `euclidean_sq_multi.c`, `emd_multi.c`,
`centroids.c`) against their natural-language specification.

Modelling conventions:
* `float` values are modelled as exact rationals (`ℚ`); the kernels use only
  addition, subtraction, multiplication, absolute value and comparison.
* flat device buffers are modelled as Lean lists, read through `List.getD`
  (out-of-range reads return `0`) and written through `List.set`
  (out-of-range writes are no-ops) — in-range behaviour is what the claims
  quantify over, and every theorem carries the exact-length hypotheses of
  the data model.
* one OpenCL work item ("unit") is one pass of the corresponding `...Unit`
  function; a whole kernel launch folds the units in block order.  The
  kernels only ever write disjoint buffer slots, so the sequential fold
  is a faithful model of any parallel interleaving of the units.
-/

namespace Meanings

/-! ## `min_index.c` — the assignment kernel -/

/-- Loop body of `minimum_index`: keep `lowest` unless the candidate `i` is
strictly closer (`distances[distanceIdx+lowest] > distances[distanceIdx+i]`). -/
def minFoldStep (d : Nat → ℚ) (lowest i : Nat) : Nat :=
  if d lowest > d i then i else lowest

/-- Inner loop of `minimum_index` for one point `idx`: starting from
`lowest = 0`, scan `i = 1 .. numClusters-1` over the row
`distances[idx*numClusters ..]`. -/
def minIndexRow (distances : List ℚ) (numClusters idx : Nat) : Nat :=
  (List.range' 1 (numClusters - 1)).foldl
    (minFoldStep (fun t => distances.getD (idx * numClusters + t) 0)) 0

/-- One work item of the `minimum_index` kernel: block `block` handles the
points `idx ∈ [block*num_per, min (block*num_per + num_per) total)` and
writes `outputs[idx]`. -/
def minimumIndexUnit (distances : List ℚ) (outputs : List Nat)
    (numClusters numPer total block : Nat) : List Nat :=
  (List.range' (block * numPer) (min (block * numPer + numPer) total - block * numPer)).foldl
    (fun out idx => out.set idx (minIndexRow distances numClusters idx)) outputs

/-- The `minimum_index` kernel launch over blocks `0 .. numBlocks-1`. -/
def minimum_index (distances : List ℚ) (outputs : List Nat)
    (numClusters numPer total numBlocks : Nat) : List Nat :=
  (List.range numBlocks).foldl
    (fun out block => minimumIndexUnit distances out numClusters numPer total block) outputs

/-! ## Distance-matrix kernels (`euclidean_sq_multi.c`, `emd_multi.c`)

Both kernels share the same chunked driver loop: block `block` handles the
points `idx ∈ [block*num_per, min (block*num_per + num_per) total)` and, for
each such point, writes the whole row `distances[idx*numClusters + c]`,
`c = 0 .. numClusters-1`; they differ only in the scalar metric written. -/

/-- Row write shared by both distance kernels: fill
`distances[idx*numClusters + c] := metric idx c` for `c = 0 .. numClusters-1`. -/
def distancesRow (metric : Nat → Nat → ℚ) (numClusters idx : Nat)
    (distances : List ℚ) : List ℚ :=
  (List.range numClusters).foldl
    (fun d c => d.set (idx * numClusters + c) (metric idx c)) distances

/-- One work item of a distance kernel. -/
def distancesUnit (metric : Nat → Nat → ℚ) (numClusters numPer total block : Nat)
    (distances : List ℚ) : List ℚ :=
  (List.range' (block * numPer) (min (block * numPer + numPer) total - block * numPer)).foldl
    (fun d idx => distancesRow metric numClusters idx d) distances

/-- A distance-kernel launch over blocks `0 .. numBlocks-1`. -/
def distancesKernel (metric : Nat → Nat → ℚ) (numClusters numPer total numBlocks : Nat)
    (distances : List ℚ) : List ℚ :=
  (List.range numBlocks).foldl
    (fun d block => distancesUnit metric numClusters numPer total block d) distances

/-- Scalar metric of `euclidean_sq_multi.c`: `sum += diff * diff` over the
`SIZE` features, `diff = points[idx*SIZE+i] - centroids[c*SIZE+i]`. -/
def euclideanSq (points centroids : List ℚ) (SIZE idx c : Nat) : ℚ :=
  (List.range SIZE).foldl
    (fun sum i =>
      sum + (points.getD (idx * SIZE + i) 0 - centroids.getD (c * SIZE + i) 0) *
            (points.getD (idx * SIZE + i) 0 - centroids.getD (c * SIZE + i) 0)) 0

/-- The `euclidean_sq_distances` kernel. -/
def euclidean_sq_distances (points centroids : List ℚ)
    (SIZE numClusters numPer total numBlocks : Nat) (distances : List ℚ) : List ℚ :=
  distancesKernel (euclideanSq points centroids SIZE) numClusters numPer total numBlocks distances

/-- In-place running-sum loop of `wasserstein_distance`
(`dist[i] += dist[i-1]` for `i = 1 .. SIZE-1`), carried accumulator style. -/
def runningSums : ℚ → List ℚ → List ℚ
  | _, [] => []
  | acc, x :: xs => (acc + x) :: runningSums (acc + x) xs

/-- The `wasserstein_distance` helper of `emd_multi.c`: per-bin differences
`hole[i] - mound[m*SIZE+i]`, running sums in place, then the sum of absolute
values. -/
def wasserstein_distance (hole mound : List ℚ) (m SIZE : Nat) : ℚ :=
  ((runningSums 0
      ((List.range SIZE).map
        (fun i => hole.getD i 0 - mound.getD (m * SIZE + i) 0))).map (fun x => |x|)).sum

/-- Scalar metric of the `wasserstein_distances` kernel: the kernel first
copies `holes[idx*SIZE ..]` into a local `hole` array and then calls
`wasserstein_distance hole mounds c`. -/
def wassersteinMetric (holes mounds : List ℚ) (SIZE idx c : Nat) : ℚ :=
  wasserstein_distance ((List.range SIZE).map (fun i => holes.getD (idx * SIZE + i) 0))
    mounds c SIZE

/-- The `wasserstein_distances` kernel. -/
def wasserstein_distances (holes mounds : List ℚ)
    (SIZE numClusters numPer total numBlocks : Nat) (distances : List ℚ) : List ℚ :=
  distancesKernel (wassersteinMetric holes mounds SIZE) numClusters numPer total numBlocks distances

/-! ## `centroids.c` — the accumulation kernel -/

/-- Local accumulation phase of `sum_by_group` for the unit owning cluster
`block`: scan all `total` points, and on `assignments[idx] == block` add the
point's features into the local accumulator and bump the local count. -/
def sumByGroupLocal (points : List ℚ) (assignments : List Int) (SIZE total : Nat)
    (block : Int) : List ℚ × Int :=
  (List.range total).foldl
    (fun acc idx =>
      if assignments.getD idx 0 = block then
        ((List.range SIZE).foldl
          (fun lc f => lc.set f (lc.getD f 0 + points.getD (idx * SIZE + f) 0)) acc.1,
         acc.2 + 1)
      else acc)
    (List.replicate SIZE 0, 0)

/-- One work item of `sum_by_group`: local accumulation for cluster `block`,
then the additive write `centroids[block*SIZE+f] += local`, `counts[block] += localCount`. -/
def sumByGroupUnit (points : List ℚ) (assignments : List Int) (SIZE total : Nat)
    (block : Nat) (centroids : List ℚ) (counts : List Int) : List ℚ × List Int :=
  ((List.range SIZE).foldl
      (fun cs f =>
        cs.set (block * SIZE + f)
          (cs.getD (block * SIZE + f) 0 +
            (sumByGroupLocal points assignments SIZE total (block : Int)).1.getD f 0)) centroids,
   counts.set block
     (counts.getD block 0 + (sumByGroupLocal points assignments SIZE total (block : Int)).2))

/-- The `sum_by_group` kernel launch: one unit per cluster `0 .. K-1`. -/
def sum_by_group (points : List ℚ) (assignments : List Int) (SIZE total K : Nat)
    (centroids : List ℚ) (counts : List Int) : List ℚ × List Int :=
  (List.range K).foldl
    (fun sc block => sumByGroupUnit points assignments SIZE total block sc.1 sc.2)
    (centroids, counts)

/-! ## Specification-side definitions (for comparison with the kernels) -/

/-- Per-cluster feature total demanded by the spec: the `f`-th coordinate of
the element-wise sum of the feature vectors of exactly the points assigned to
`block`. -/
def clusterFeatureSum (points : List ℚ) (assignments : List Int) (SIZE total : Nat)
    (block : Int) (f : Nat) : ℚ :=
  ((List.range total).map
    (fun i => if assignments.getD i 0 = block then points.getD (i * SIZE + f) 0 else 0)).sum

/-- Per-cluster point count demanded by the spec. -/
def clusterCount (assignments : List Int) (total : Nat) (block : Int) : Int :=
  ((List.range total).map
    (fun i => if assignments.getD i 0 = block then (1 : Int) else 0)).sum

/-- Modelled from the spec: the host-side `assign` operation of spec section 6.
The validation layer that detects `InvalidClusterCount` (`K = 0`) before any
parallel work is dispatched (spec sections 4.3 and 7) is host orchestration
code that is not among the kernel sources; on valid input it launches the
`minimum_index` kernel over the whole point set. -/
def assign (distances : List ℚ) (N K : Nat) : Except String (List Nat) :=
  if K = 0 then Except.error "InvalidClusterCount"
  else Except.ok (minimum_index distances (List.replicate N 0) K N N 1)

/-- Modelled from the spec: the host-side `accumulate` operation of spec
section 6.  The validation layer that detects `IndexOutOfRange` (an assignment
value outside `[0, K)`) before dispatching `sum_by_group` (spec section 7) is
host orchestration code that is not among the kernel sources. -/
def accumulate (points : List ℚ) (assignments : List Int) (SIZE N K : Nat)
    (sums : List ℚ) (counts : List Int) : Except String (List ℚ × List Int) :=
  if assignments.any (fun a => decide (a < 0) || decide ((K : Int) ≤ a)) then
    Except.error "IndexOutOfRange"
  else Except.ok (sum_by_group points assignments SIZE N K sums counts)

/-! ## Generic buffer lemmas -/

/-- A fold whose every step is a single `List.set` keeps the buffer length. -/
theorem foldl_length_of_step {α β : Type} (step : List α → β → List α)
    (h : ∀ l x, (step l x).length = l.length) :
    ∀ (xs : List β) (l : List α), (xs.foldl step l).length = l.length := by
  intro xs
  induction xs with
  | nil => intro l; rfl
  | cons x xs ih => intro l; rw [List.foldl_cons, ih, h]

/-- Two lists with equal lengths and equal `getD` reads are equal. -/
theorem list_eq_of_getD {α : Type} (d : α) {l1 l2 : List α} (hlen : l1.length = l2.length)
    (h : ∀ j, l1.getD j d = l2.getD j d) : l1 = l2 := by
  apply List.ext_getElem hlen
  intro n h1 h2
  have hn := h n
  rwa [List.getD_eq_getElem _ _ h1, List.getD_eq_getElem _ _ h2] at hn

/-- Read through a write: `getD` after a single `set`. -/
theorem getD_set_general {α : Type} (d v : α) (p j : Nat) (l : List α) :
    (l.set p v).getD j d = if p = j ∧ j < l.length then v else l.getD j d := by
  by_cases hj : j < l.length
  · rw [List.getD_eq_getElem _ _ (by simpa using hj), List.getElem_set]
    by_cases hpj : p = j
    · simp [hpj, hj]
    · simp only [hpj, if_false, false_and]
      rw [List.getD_eq_getElem _ _ hj]
  · rw [List.getD_eq_default _ _ (by simpa using Nat.le_of_not_lt hj),
      List.getD_eq_default _ _ (Nat.le_of_not_lt hj)]
    simp [hj]

/-- Filling the slots `b + s, …, b + s + n - 1` with values `v s, …, v (s+n-1)`:
what each slot reads afterwards. -/
theorem foldl_set_getD {α : Type} (v : Nat → α) (d : α) (b j : Nat) :
    ∀ (n s : Nat) (l : List α),
      (((List.range' s n).foldl (fun l2 c => l2.set (b + c) (v c)) l).getD j d) =
      if b + s ≤ j ∧ j < b + s + n ∧ j < l.length then v (j - b) else l.getD j d := by
  intro n
  induction n with
  | zero =>
    intro s l
    rw [show List.range' s 0 = [] from rfl, List.foldl_nil]
    split_ifs with h
    · omega
    · rfl
  | succ n ih =>
    intro s l
    rw [List.range'_succ, List.foldl_cons, ih (s + 1)]
    simp only [List.length_set]
    rw [getD_set_general]
    split_ifs <;> first
      | rfl
      | omega
      | (rename_i hA hB hC
         have he : j - b = s := by omega
         rw [he])

/-- Variant of `foldl_set_getD` where the written slot is the loop index itself. -/
theorem foldl_set_id_getD {α : Type} (v : Nat → α) (d : α) (j n s : Nat) (l : List α) :
    ((List.range' s n).foldl (fun l2 i => l2.set i (v i)) l).getD j d =
    if s ≤ j ∧ j < s + n ∧ j < l.length then v j else l.getD j d := by
  have hfun : (fun (l2 : List α) i => l2.set i (v i)) =
      (fun (l2 : List α) i => l2.set (0 + i) (v i)) := by
    funext l2 i
    rw [Nat.zero_add]
  rw [hfun, foldl_set_getD v d 0 j n s l]
  simp only [Nat.zero_add, Nat.sub_zero]

/-- Additive fill of the slots `b + s, …, b + s + n - 1` (`slot += g f`):
what each slot reads afterwards. -/
theorem foldl_add_set_getD (g : Nat → ℚ) (b j : Nat) :
    ∀ (n s : Nat) (l : List ℚ),
      ((List.range' s n).foldl
        (fun l2 f => l2.set (b + f) (l2.getD (b + f) 0 + g f)) l).getD j 0 =
      if b + s ≤ j ∧ j < b + s + n ∧ j < l.length then l.getD j 0 + g (j - b)
      else l.getD j 0 := by
  intro n
  induction n with
  | zero =>
    intro s l
    rw [show List.range' s 0 = [] from rfl, List.foldl_nil]
    split_ifs with h
    · omega
    · rfl
  | succ n ih =>
    intro s l
    rw [List.range'_succ, List.foldl_cons, ih (s + 1)]
    simp only [List.length_set]
    rw [getD_set_general]
    split_ifs <;> first
      | rfl
      | omega
      | (have he : j - b = s := by omega
         have he2 : b + s = j := by omega
         rw [he, he2])

/-- Variant of `foldl_add_set_getD` where the written slot is the loop index. -/
theorem foldl_add_set_id_getD (g : Nat → ℚ) (j n s : Nat) (l : List ℚ) :
    ((List.range' s n).foldl (fun l2 f => l2.set f (l2.getD f 0 + g f)) l).getD j 0 =
    if s ≤ j ∧ j < s + n ∧ j < l.length then l.getD j 0 + g j else l.getD j 0 := by
  have hfun : (fun (l2 : List ℚ) f => l2.set f (l2.getD f 0 + g f)) =
      (fun (l2 : List ℚ) f => l2.set (0 + f) (l2.getD (0 + f) 0 + g f)) := by
    funext l2 f
    rw [Nat.zero_add]
  rw [hfun, foldl_add_set_getD g 0 j n s l]
  simp only [Nat.zero_add, Nat.sub_zero]

/-- Sum of a mapped index range as a `Finset` sum. -/
theorem list_sum_map_range {M : Type} [AddCommMonoid M] (f : Nat → M) :
    ∀ n : Nat, ((List.range n).map f).sum = ∑ i ∈ Finset.range n, f i := by
  intro n
  induction n with
  | zero => simp
  | succ n ih =>
    rw [List.range_succ, List.map_append, List.sum_append, Finset.sum_range_succ, ih]
    simp

/-- A running-total fold over an index range is the starting value plus the sum. -/
theorem foldl_add_eq_sum {M : Type} [AddCommMonoid M] (g : Nat → M) :
    ∀ (n : Nat) (a : M),
      (List.range n).foldl (fun s i => s + g i) a = a + ∑ i ∈ Finset.range n, g i := by
  intro n
  induction n with
  | zero => intro a; simp
  | succ n ih =>
    intro a
    rw [List.range_succ, List.foldl_append, List.foldl_cons, List.foldl_nil, ih,
      Finset.sum_range_succ, add_assoc]

/-- Reading a mapped index range. -/
theorem getD_map_range {α : Type} (f : Nat → α) (d : α) (n j : Nat) :
    ((List.range n).map f).getD j d = if j < n then f j else d := by
  by_cases h : j < n
  · rw [List.getD_eq_getElem _ _ (by simpa using h)]
    simp [h]
  · rw [List.getD_eq_default _ _ (by simpa using Nat.le_of_not_lt h)]
    simp [h]

/-! ## Correctness of the `minimum_index` scan -/

/-- Invariant of the `lowest`-tracking loop: starting below the scanned range,
the final value is the current candidate or lies in the range, never exceeds
any scanned value, and strictly beats every candidate to its left. -/
theorem minFold_spec (d : Nat → ℚ) :
    ∀ (n s l : Nat), l < s →
      ((List.range' s n).foldl (minFoldStep d) l = l ∨
        (s ≤ (List.range' s n).foldl (minFoldStep d) l ∧
          (List.range' s n).foldl (minFoldStep d) l < s + n)) ∧
      d ((List.range' s n).foldl (minFoldStep d) l) ≤ d l ∧
      (∀ i, s ≤ i → i < s + n → d ((List.range' s n).foldl (minFoldStep d) l) ≤ d i) ∧
      ((List.range' s n).foldl (minFoldStep d) l ≠ l →
        d ((List.range' s n).foldl (minFoldStep d) l) < d l) ∧
      (∀ i, s ≤ i → i < s + n → i < (List.range' s n).foldl (minFoldStep d) l →
        d ((List.range' s n).foldl (minFoldStep d) l) < d i) := by
  intro n
  induction n with
  | zero =>
    intro s l hls
    rw [show List.range' s 0 = [] from rfl, List.foldl_nil]
    refine ⟨Or.inl rfl, le_refl _, ?_, ?_, ?_⟩
    · intro i h1 h2
      omega
    · intro h
      exact absurd rfl h
    · intro i h1 h2
      omega
  | succ n ih =>
    intro s l hls
    rw [List.range'_succ, List.foldl_cons]
    by_cases hc : d l > d s
    · have hl2 : minFoldStep d l s = s := by
        simp [minFoldStep, hc]
      rw [hl2]
      obtain ⟨h1, h2, h3, h4, h5⟩ := ih (s + 1) s (by omega)
      refine ⟨?_, ?_, ?_, ?_, ?_⟩
      · right
        omega
      · exact le_of_lt (lt_of_le_of_lt h2 hc)
      · intro i hi1 hi2
        rcases Nat.eq_or_lt_of_le hi1 with h | h
        · rw [← h]
          exact h2
        · exact h3 i h (by omega)
      · intro _
        exact lt_of_le_of_lt h2 hc
      · intro i hi1 hi2 hir
        rcases Nat.eq_or_lt_of_le hi1 with h | h
        · rw [← h]
          exact h4 (by omega)
        · exact h5 i h (by omega) hir
    · have hl2 : minFoldStep d l s = l := by
        simp [minFoldStep, hc]
      rw [hl2]
      obtain ⟨h1, h2, h3, h4, h5⟩ := ih (s + 1) l (by omega)
      have hls2 : d l ≤ d s := le_of_not_lt hc
      refine ⟨?_, h2, ?_, h4, ?_⟩
      · omega
      · intro i hi1 hi2
        rcases Nat.eq_or_lt_of_le hi1 with h | h
        · rw [← h]
          exact le_trans h2 hls2
        · exact h3 i h (by omega)
      · intro i hi1 hi2 hir
        rcases Nat.eq_or_lt_of_le hi1 with h | h
        · rw [← h]
          have hne : (List.range' (s + 1) n).foldl (minFoldStep d) l ≠ l := by omega
          exact lt_of_lt_of_le (h4 hne) hls2
        · exact h5 i h (by omega) hir

/-- Row-level correctness of `minimum_index`: the selected index is a valid
cluster index, attains the row minimum, and strictly beats every lower index. -/
theorem minIndexRow_spec (distances : List ℚ) (K idx : Nat) (hK : 1 ≤ K) :
    minIndexRow distances K idx < K ∧
    (∀ c, c < K →
      distances.getD (idx * K + minIndexRow distances K idx) 0 ≤
        distances.getD (idx * K + c) 0) ∧
    (∀ j, j < minIndexRow distances K idx →
      distances.getD (idx * K + minIndexRow distances K idx) 0 <
        distances.getD (idx * K + j) 0) := by
  obtain ⟨h1, h2, h3, h4, h5⟩ :=
    minFold_spec (fun t => distances.getD (idx * K + t) 0) (K - 1) 1 0 (by omega)
  rw [show (List.range' 1 (K - 1)).foldl
      (minFoldStep (fun t => distances.getD (idx * K + t) 0)) 0 =
      minIndexRow distances K idx from rfl] at h1 h2 h3 h4 h5
  refine ⟨by omega, ?_, ?_⟩
  · intro c hc
    rcases Nat.eq_zero_or_pos c with h | h
    · rw [h]
      exact h2
    · exact h3 c h (by omega)
  · intro j hj
    rcases Nat.eq_zero_or_pos j with h | h
    · rw [h]
      exact h4 (by omega)
    · exact h5 j h (by omega) hj

/-- Work items of `minimum_index` keep the output-buffer length. -/
theorem minimumIndexUnit_length (distances : List ℚ) (out : List Nat)
    (K np total b : Nat) :
    (minimumIndexUnit distances out K np total b).length = out.length := by
  unfold minimumIndexUnit
  exact foldl_length_of_step _ (fun l x => List.length_set l x _) _ _

/-- A `minimum_index` launch keeps the output-buffer length. -/
theorem minimum_index_length (distances : List ℚ) (out : List Nat)
    (K np total B : Nat) :
    (minimum_index distances out K np total B).length = out.length := by
  unfold minimum_index
  exact foldl_length_of_step _ (fun l x => minimumIndexUnit_length distances l K np total x) _ _

/-- What one `minimum_index` work item leaves in each output slot. -/
theorem minimumIndexUnit_getD (distances : List ℚ) (out : List Nat)
    (K np total b j : Nat) :
    (minimumIndexUnit distances out K np total b).getD j 0 =
    if b * np ≤ j ∧ j < min (b * np + np) total ∧ j < out.length
    then minIndexRow distances K j else out.getD j 0 := by
  unfold minimumIndexUnit
  rw [foldl_set_id_getD]
  split_ifs <;> first | rfl | omega

/-- What a whole `minimum_index` launch leaves in each output slot. -/
theorem minimum_index_getD (distances : List ℚ) (out : List Nat)
    (K np total B j : Nat) :
    (minimum_index distances out K np total B).getD j 0 =
    if j < min (B * np) total ∧ j < out.length then minIndexRow distances K j
    else out.getD j 0 := by
  induction B with
  | zero =>
    rw [show minimum_index distances out K np total 0 = out from rfl]
    have e : 0 * np = 0 := Nat.zero_mul np
    split_ifs <;> first | rfl | omega
  | succ B ih =>
    have hstep : minimum_index distances out K np total (B + 1) =
        minimumIndexUnit distances (minimum_index distances out K np total B)
          K np total B := by
      unfold minimum_index
      rw [List.range_succ, List.foldl_append, List.foldl_cons, List.foldl_nil]
    rw [hstep, minimumIndexUnit_getD, ih, minimum_index_length]
    have e : (B + 1) * np = B * np + np := by ring
    split_ifs <;> first | rfl | omega

/-! ## Chunk-structure of the distance kernels -/

/-- A row write keeps the distance-buffer length. -/
theorem distancesRow_length (metric : Nat → Nat → ℚ) (K idx : Nat) (d : List ℚ) :
    (distancesRow metric K idx d).length = d.length := by
  unfold distancesRow
  exact foldl_length_of_step _ (fun l x => List.length_set l _ _) _ _

/-- A work item keeps the distance-buffer length. -/
theorem distancesUnit_length (metric : Nat → Nat → ℚ) (K np total b : Nat) (d : List ℚ) :
    (distancesUnit metric K np total b d).length = d.length := by
  unfold distancesUnit
  exact foldl_length_of_step _ (fun l x => distancesRow_length metric K x l) _ _

/-- A kernel launch keeps the distance-buffer length. -/
theorem distancesKernel_length (metric : Nat → Nat → ℚ) (K np total B : Nat) (d : List ℚ) :
    (distancesKernel metric K np total B d).length = d.length := by
  unfold distancesKernel
  exact foldl_length_of_step _ (fun l x => distancesUnit_length metric K np total x l) _ _

/-- What one row write leaves in each slot. -/
theorem distancesRow_getD (metric : Nat → Nat → ℚ) (K idx : Nat) (d : List ℚ) (j : Nat) :
    (distancesRow metric K idx d).getD j 0 =
    if idx * K ≤ j ∧ j < idx * K + K ∧ j < d.length then metric idx (j - idx * K)
    else d.getD j 0 := by
  unfold distancesRow
  rw [List.range_eq_range', foldl_set_getD (metric idx) 0 (idx * K) j K 0 d]
  split_ifs <;> first | rfl | omega

/-- What a fold of row writes over a point range leaves in slot `idx*K + c`. -/
theorem distancesRows_getD (metric : Nat → Nat → ℚ) (K : Nat) (hK : 0 < K)
    (idx c : Nat) (hc : c < K) :
    ∀ (n s : Nat) (d : List ℚ),
      ((List.range' s n).foldl (fun d2 i => distancesRow metric K i d2) d).getD
        (idx * K + c) 0 =
      if s ≤ idx ∧ idx < s + n ∧ idx * K + c < d.length then metric idx c
      else d.getD (idx * K + c) 0 := by
  intro n
  induction n with
  | zero =>
    intro s d
    rw [show List.range' s 0 = [] from rfl, List.foldl_nil]
    split_ifs with h
    · omega
    · rfl
  | succ n ih =>
    intro s d
    rw [List.range'_succ, List.foldl_cons, ih (s + 1), distancesRow_length,
      distancesRow_getD]
    rcases Nat.lt_trichotomy idx s with hlt | heq | hgt
    · have hfact : idx * K + c < s * K := by
        have hle : (idx + 1) * K ≤ s * K := Nat.mul_le_mul_right K hlt
        have he : (idx + 1) * K = idx * K + K := by ring
        omega
      split_ifs <;> first | rfl | omega
    · subst heq
      have hsub : idx * K + c - idx * K = c := by omega
      split_ifs <;> first | rfl | omega | rw [hsub]
    · have hfact : s * K + K ≤ idx * K := by
        have hle : (s + 1) * K ≤ idx * K := Nat.mul_le_mul_right K hgt
        have he : (s + 1) * K = s * K + K := by ring
        omega
      split_ifs <;> first | rfl | omega

/-- What one distance-kernel work item leaves in slot `idx*K + c`. -/
theorem distancesUnit_getD (metric : Nat → Nat → ℚ) (K np total b : Nat) (hK : 0 < K)
    (idx c : Nat) (hc : c < K) (d : List ℚ) :
    (distancesUnit metric K np total b d).getD (idx * K + c) 0 =
    if b * np ≤ idx ∧ idx < min (b * np + np) total ∧ idx * K + c < d.length
    then metric idx c else d.getD (idx * K + c) 0 := by
  unfold distancesUnit
  rw [distancesRows_getD metric K hK idx c hc]
  split_ifs <;> first | rfl | omega

/-- What a whole distance-kernel launch leaves in slot `idx*K + c`. -/
theorem distancesKernel_getD (metric : Nat → Nat → ℚ) (K np total B : Nat) (hK : 0 < K)
    (idx c : Nat) (hc : c < K) (d : List ℚ) :
    (distancesKernel metric K np total B d).getD (idx * K + c) 0 =
    if idx < min (B * np) total ∧ idx * K + c < d.length then metric idx c
    else d.getD (idx * K + c) 0 := by
  induction B with
  | zero =>
    rw [show distancesKernel metric K np total 0 d = d from rfl]
    have e : 0 * np = 0 := Nat.zero_mul np
    split_ifs <;> first | rfl | omega
  | succ B ih =>
    have hstep : distancesKernel metric K np total (B + 1) d =
        distancesUnit metric K np total B (distancesKernel metric K np total B d) := by
      unfold distancesKernel
      rw [List.range_succ, List.foldl_append, List.foldl_cons, List.foldl_nil]
    rw [hstep, distancesUnit_getD metric K np total B hK idx c hc, ih,
      distancesKernel_length]
    have e : (B + 1) * np = B * np + np := by ring
    split_ifs <;> first | rfl | omega

/-! ## Characterization of `sum_by_group` -/

/-- Zero-filled buffers read zero everywhere. -/
theorem getD_replicate_zero (n m : Nat) : (List.replicate n (0 : ℚ)).getD m 0 = 0 := by
  by_cases h : m < n
  · rw [List.getD_eq_getElem _ _ (by simpa using h)]
    simp
  · rw [List.getD_eq_default _ _ (by simpa using Nat.le_of_not_lt h)]

/-- Peeling the last scanned point off `clusterFeatureSum`. -/
theorem clusterFeatureSum_succ (pts : List ℚ) (asg : List Int) (SIZE t : Nat)
    (b : Int) (f : Nat) :
    clusterFeatureSum pts asg SIZE (t + 1) b f =
    clusterFeatureSum pts asg SIZE t b f +
      (if asg.getD t 0 = b then pts.getD (t * SIZE + f) 0 else 0) := by
  unfold clusterFeatureSum
  rw [List.range_succ, List.map_append, List.sum_append]
  simp

/-- Peeling the last scanned point off `clusterCount`. -/
theorem clusterCount_succ (asg : List Int) (t : Nat) (b : Int) :
    clusterCount asg (t + 1) b =
    clusterCount asg t b + (if asg.getD t 0 = b then 1 else 0) := by
  unfold clusterCount
  rw [List.range_succ, List.map_append, List.sum_append]
  simp

/-- Unfolding one scanned point of the local accumulation loop. -/
theorem sumByGroupLocal_succ (pts : List ℚ) (asg : List Int) (SIZE t : Nat) (b : Int) :
    sumByGroupLocal pts asg SIZE (t + 1) b =
    (if asg.getD t 0 = b then
      ((List.range SIZE).foldl
        (fun lc f => lc.set f (lc.getD f 0 + pts.getD (t * SIZE + f) 0))
        (sumByGroupLocal pts asg SIZE t b).1,
       (sumByGroupLocal pts asg SIZE t b).2 + 1)
    else sumByGroupLocal pts asg SIZE t b) := by
  unfold sumByGroupLocal
  rw [List.range_succ, List.foldl_append, List.foldl_cons, List.foldl_nil]

/-- The local accumulator of one `sum_by_group` unit holds exactly the
per-cluster feature totals and point count of its cluster. -/
theorem sumByGroupLocal_spec (pts : List ℚ) (asg : List Int) (SIZE : Nat) (b : Int) :
    ∀ total : Nat,
      (sumByGroupLocal pts asg SIZE total b).1.length = SIZE ∧
      (∀ f, f < SIZE →
        (sumByGroupLocal pts asg SIZE total b).1.getD f 0 =
          clusterFeatureSum pts asg SIZE total b f) ∧
      (sumByGroupLocal pts asg SIZE total b).2 = clusterCount asg total b := by
  intro total
  induction total with
  | zero =>
    refine ⟨by simp [sumByGroupLocal], ?_, by simp [sumByGroupLocal, clusterCount]⟩
    intro f hf
    show (List.replicate SIZE (0 : ℚ)).getD f 0 = clusterFeatureSum pts asg SIZE 0 b f
    rw [getD_replicate_zero]
    simp [clusterFeatureSum]
  | succ t ih =>
    obtain ⟨ihl, ihf, ihc⟩ := ih
    rw [sumByGroupLocal_succ]
    by_cases hcond : asg.getD t 0 = b
    · rw [if_pos hcond]
      refine ⟨?_, ?_, ?_⟩
      · show ((List.range SIZE).foldl
            (fun lc f2 => lc.set f2 (lc.getD f2 0 + pts.getD (t * SIZE + f2) 0))
            (sumByGroupLocal pts asg SIZE t b).1).length = SIZE
        rw [foldl_length_of_step _ (fun l x => List.length_set l _ _) _ _, ihl]
      · intro f hf
        show ((List.range SIZE).foldl
            (fun lc f2 => lc.set f2 (lc.getD f2 0 + pts.getD (t * SIZE + f2) 0))
            (sumByGroupLocal pts asg SIZE t b).1).getD f 0 = _
        rw [List.range_eq_range', foldl_add_set_id_getD, if_pos ⟨by omega, by omega, by omega⟩,
          ihf f hf, clusterFeatureSum_succ, if_pos hcond]
      · show (sumByGroupLocal pts asg SIZE t b).2 + 1 = _
        rw [ihc, clusterCount_succ, if_pos hcond]
    · rw [if_neg hcond]
      refine ⟨ihl, ?_, ?_⟩
      · intro f hf
        rw [ihf f hf, clusterFeatureSum_succ, if_neg hcond, add_zero]
      · rw [ihc, clusterCount_succ, if_neg hcond, add_zero]

/-- A `sum_by_group` unit keeps the sums-buffer length. -/
theorem sumByGroupUnit_fst_length (pts : List ℚ) (asg : List Int) (SIZE total b : Nat)
    (cs : List ℚ) (cn : List Int) :
    (sumByGroupUnit pts asg SIZE total b cs cn).1.length = cs.length := by
  unfold sumByGroupUnit
  exact foldl_length_of_step _ (fun l x => List.length_set l _ _) _ _

/-- A `sum_by_group` unit keeps the counts-buffer length. -/
theorem sumByGroupUnit_snd_length (pts : List ℚ) (asg : List Int) (SIZE total b : Nat)
    (cs : List ℚ) (cn : List Int) :
    (sumByGroupUnit pts asg SIZE total b cs cn).2.length = cn.length := by
  unfold sumByGroupUnit
  exact List.length_set cn b _

/-- What one `sum_by_group` unit leaves in each sums slot. -/
theorem sumByGroupUnit_fst_getD (pts : List ℚ) (asg : List Int) (SIZE total b : Nat)
    (cs : List ℚ) (cn : List Int) (j : Nat) :
    (sumByGroupUnit pts asg SIZE total b cs cn).1.getD j 0 =
    if b * SIZE ≤ j ∧ j < b * SIZE + SIZE ∧ j < cs.length
    then cs.getD j 0 + clusterFeatureSum pts asg SIZE total (b : Int) (j - b * SIZE)
    else cs.getD j 0 := by
  unfold sumByGroupUnit
  rw [List.range_eq_range', foldl_add_set_getD _ (b * SIZE) j SIZE 0 cs]
  split_ifs with h1 h2 h2
  · rw [(sumByGroupLocal_spec pts asg SIZE (b : Int) total).2.1 (j - b * SIZE) (by omega)]
  · omega
  · omega
  · rfl

/-- What one `sum_by_group` unit leaves in each counts slot. -/
theorem sumByGroupUnit_snd_getD (pts : List ℚ) (asg : List Int) (SIZE total b : Nat)
    (cs : List ℚ) (cn : List Int) (j : Nat) :
    (sumByGroupUnit pts asg SIZE total b cs cn).2.getD j 0 =
    if b = j ∧ j < cn.length
    then cn.getD j 0 + clusterCount asg total (b : Int) else cn.getD j 0 := by
  unfold sumByGroupUnit
  rw [getD_set_general]
  split_ifs with h
  · rw [(sumByGroupLocal_spec pts asg SIZE (b : Int) total).2.2]
    rw [show b = j from h.1]
  · rfl

/-- Unfolding the last cluster unit of a `sum_by_group` launch. -/
theorem sum_by_group_succ (pts : List ℚ) (asg : List Int) (SIZE N K : Nat)
    (cs : List ℚ) (cn : List Int) :
    sum_by_group pts asg SIZE N (K + 1) cs cn =
    sumByGroupUnit pts asg SIZE N K (sum_by_group pts asg SIZE N K cs cn).1
      (sum_by_group pts asg SIZE N K cs cn).2 := by
  unfold sum_by_group
  rw [List.range_succ, List.foldl_append, List.foldl_cons, List.foldl_nil]

/-- A `sum_by_group` launch keeps both buffer lengths. -/
theorem sum_by_group_lengths (pts : List ℚ) (asg : List Int) (SIZE N : Nat) :
    ∀ (K : Nat) (cs : List ℚ) (cn : List Int),
      (sum_by_group pts asg SIZE N K cs cn).1.length = cs.length ∧
      (sum_by_group pts asg SIZE N K cs cn).2.length = cn.length := by
  intro K
  induction K with
  | zero => intro cs cn; exact ⟨rfl, rfl⟩
  | succ K ih =>
    intro cs cn
    rw [sum_by_group_succ, sumByGroupUnit_fst_length, sumByGroupUnit_snd_length]
    exact ih cs cn

/-- Sums slots of clusters not launched are untouched. -/
theorem sum_by_group_fst_untouched (pts : List ℚ) (asg : List Int) (SIZE N : Nat) :
    ∀ (K : Nat) (cs : List ℚ) (cn : List Int) (j : Nat), K * SIZE ≤ j →
      (sum_by_group pts asg SIZE N K cs cn).1.getD j 0 = cs.getD j 0 := by
  intro K
  induction K with
  | zero => intro cs cn j _; rfl
  | succ K ih =>
    intro cs cn j hj
    have e : (K + 1) * SIZE = K * SIZE + SIZE := by ring
    rw [sum_by_group_succ, sumByGroupUnit_fst_getD, if_neg (by omega)]
    exact ih cs cn j (by omega)

/-- Counts slots of clusters not launched are untouched. -/
theorem sum_by_group_snd_untouched (pts : List ℚ) (asg : List Int) (SIZE N : Nat) :
    ∀ (K : Nat) (cs : List ℚ) (cn : List Int) (j : Nat), K ≤ j →
      (sum_by_group pts asg SIZE N K cs cn).2.getD j 0 = cn.getD j 0 := by
  intro K
  induction K with
  | zero => intro cs cn j _; rfl
  | succ K ih =>
    intro cs cn j hj
    rw [sum_by_group_succ, sumByGroupUnit_snd_getD, if_neg (by omega)]
    exact ih cs cn j (by omega)

/-- Additive effect of a `sum_by_group` launch on the sums slot of cluster
`bl`, feature `f`. -/
theorem sum_by_group_fst_getD (pts : List ℚ) (asg : List Int) (SIZE N : Nat) :
    ∀ (K : Nat) (cs : List ℚ) (cn : List Int) (bl f : Nat), bl < K → f < SIZE →
      (sum_by_group pts asg SIZE N K cs cn).1.getD (bl * SIZE + f) 0 =
      if bl * SIZE + f < cs.length
      then cs.getD (bl * SIZE + f) 0 + clusterFeatureSum pts asg SIZE N (bl : Int) f
      else cs.getD (bl * SIZE + f) 0 := by
  intro K
  induction K with
  | zero => intro cs cn bl f hbl _; omega
  | succ K ih =>
    intro cs cn bl f hbl hf
    rw [sum_by_group_succ, sumByGroupUnit_fst_getD,
      (sum_by_group_lengths pts asg SIZE N K cs cn).1]
    rcases Nat.lt_or_ge bl K with hlt | hge
    · have hfact : bl * SIZE + f < K * SIZE := by
        have hle : (bl + 1) * SIZE ≤ K * SIZE := Nat.mul_le_mul_right SIZE hlt
        have he : (bl + 1) * SIZE = bl * SIZE + SIZE := by ring
        omega
      rw [if_neg (by omega)]
      exact ih cs cn bl f hlt hf
    · have hbK : bl = K := by omega
      subst hbK
      by_cases hlen : bl * SIZE + f < cs.length
      · rw [if_pos ⟨by omega, by omega, hlen⟩,
          sum_by_group_fst_untouched pts asg SIZE N bl cs cn _ (by omega),
          show bl * SIZE + f - bl * SIZE = f from by omega, if_pos hlen]
      · rw [if_neg (by omega), if_neg hlen,
          sum_by_group_fst_untouched pts asg SIZE N bl cs cn _ (by omega)]

/-- Additive effect of a `sum_by_group` launch on the counts slot of cluster
`bl`. -/
theorem sum_by_group_snd_getD (pts : List ℚ) (asg : List Int) (SIZE N : Nat) :
    ∀ (K : Nat) (cs : List ℚ) (cn : List Int) (bl : Nat), bl < K →
      (sum_by_group pts asg SIZE N K cs cn).2.getD bl 0 =
      if bl < cn.length then cn.getD bl 0 + clusterCount asg N (bl : Int)
      else cn.getD bl 0 := by
  intro K
  induction K with
  | zero => intro cs cn bl hbl; omega
  | succ K ih =>
    intro cs cn bl hbl
    rw [sum_by_group_succ, sumByGroupUnit_snd_getD,
      (sum_by_group_lengths pts asg SIZE N K cs cn).2]
    rcases Nat.lt_or_ge bl K with hlt | hge
    · rw [if_neg (by omega)]
      exact ih cs cn bl hlt
    · have hbK : bl = K := by omega
      subst hbK
      by_cases hlen : bl < cn.length
      · rw [if_pos ⟨rfl, hlen⟩,
          sum_by_group_snd_untouched pts asg SIZE N bl cs cn _ (by omega), if_pos hlen]
      · rw [if_neg (by omega), if_neg hlen,
          sum_by_group_snd_untouched pts asg SIZE N bl cs cn _ (by omega)]

/-! ## Closed forms of the two metrics -/

/-- The in-place running-sum loop computes all the leading partial sums. -/
theorem runningSums_eq :
    ∀ (l : List ℚ) (a : ℚ),
      runningSums a l =
      (List.range l.length).map (fun i => a + ∑ j ∈ Finset.range (i + 1), l.getD j 0) := by
  intro l
  induction l with
  | nil => intro a; rfl
  | cons x xs ih =>
    intro a
    show (a + x) :: runningSums (a + x) xs = _
    rw [ih (a + x), show (x :: xs).length = xs.length + 1 from rfl,
      List.range_succ_eq_map, List.map_cons, List.map_map]
    congr 1
    · simp [Finset.sum_range_one]
    · apply List.map_congr_left
      intro i _
      show a + x + ∑ j ∈ Finset.range (i + 1), xs.getD j 0 =
        a + ∑ j ∈ Finset.range (Nat.succ i + 1), (x :: xs).getD j 0
      rw [Finset.sum_range_succ' (fun j => (x :: xs).getD j 0) (Nat.succ i)]
      simp only [List.getD_cons_succ, List.getD_cons_zero, Nat.succ_eq_add_one]
      ring

/-- The cumulative-difference metric is the sum of the absolute values of the
leading partial sums of the per-bin differences. -/
theorem wasserstein_distance_eq_sum (hole mound : List ℚ) (m SIZE : Nat) :
    wasserstein_distance hole mound m SIZE =
    ∑ i ∈ Finset.range SIZE,
      |∑ j ∈ Finset.range (i + 1), (hole.getD j 0 - mound.getD (m * SIZE + j) 0)| := by
  unfold wasserstein_distance
  rw [runningSums_eq, List.length_map, List.length_range, List.map_map, list_sum_map_range]
  apply Finset.sum_congr rfl
  intro i hi
  show |0 + ∑ j ∈ Finset.range (i + 1),
      ((List.range SIZE).map
        (fun t => hole.getD t 0 - mound.getD (m * SIZE + t) 0)).getD j 0| = _
  rw [zero_add]
  congr 1
  apply Finset.sum_congr rfl
  intro j hj
  rw [getD_map_range,
    if_pos (by
      have h1 := Finset.mem_range.mp hi
      have h2 := Finset.mem_range.mp hj
      omega)]

/-- The squared-Euclidean loop as a sum of squared per-feature differences. -/
theorem euclideanSq_eq_sum (p c : List ℚ) (SIZE idx cl : Nat) :
    euclideanSq p c SIZE idx cl =
    ∑ i ∈ Finset.range SIZE,
      (p.getD (idx * SIZE + i) 0 - c.getD (cl * SIZE + i) 0) *
      (p.getD (idx * SIZE + i) 0 - c.getD (cl * SIZE + i) 0) := by
  unfold euclideanSq
  rw [foldl_add_eq_sum, zero_add]

/-! ## Splitting the accumulated totals over a partition of the point set -/

/-- The per-cluster feature totals over a concatenated point set split into the
totals over the two halves. -/
theorem clusterFeatureSum_append (pts1 pts2 : List ℚ) (asg1 asg2 : List Int)
    (SIZE N1 N2 : Nat) (b : Int) (f : Nat) (hf : f < SIZE)
    (hp1 : pts1.length = N1 * SIZE) (ha1 : asg1.length = N1) :
    clusterFeatureSum (pts1 ++ pts2) (asg1 ++ asg2) SIZE (N1 + N2) b f =
    clusterFeatureSum pts1 asg1 SIZE N1 b f + clusterFeatureSum pts2 asg2 SIZE N2 b f := by
  unfold clusterFeatureSum
  rw [List.range_add, List.map_append, List.sum_append, List.map_map]
  congr 1
  · apply congrArg List.sum
    apply List.map_congr_left
    intro i hi
    have hi2 : i < N1 := List.mem_range.mp hi
    have hfact : i * SIZE + f < N1 * SIZE := by
      have hle : (i + 1) * SIZE ≤ N1 * SIZE := Nat.mul_le_mul_right SIZE hi2
      have he : (i + 1) * SIZE = i * SIZE + SIZE := by ring
      omega
    rw [List.getD_append asg1 asg2 0 i (by omega),
      List.getD_append pts1 pts2 0 (i * SIZE + f) (by omega)]
  · apply congrArg List.sum
    apply List.map_congr_left
    intro i _
    show (if (asg1 ++ asg2).getD (N1 + i) 0 = b
        then (pts1 ++ pts2).getD ((N1 + i) * SIZE + f) 0 else 0) = _
    have he : (N1 + i) * SIZE = N1 * SIZE + i * SIZE := by ring
    rw [List.getD_append_right asg1 asg2 0 (N1 + i) (by omega),
      List.getD_append_right pts1 pts2 0 ((N1 + i) * SIZE + f) (by omega),
      show N1 + i - asg1.length = i from by omega,
      show (N1 + i) * SIZE + f - pts1.length = i * SIZE + f from by omega]

/-- The per-cluster counts over a concatenated point set split likewise. -/
theorem clusterCount_append (asg1 asg2 : List Int) (N1 N2 : Nat) (b : Int)
    (ha1 : asg1.length = N1) :
    clusterCount (asg1 ++ asg2) (N1 + N2) b =
    clusterCount asg1 N1 b + clusterCount asg2 N2 b := by
  unfold clusterCount
  rw [List.range_add, List.map_append, List.sum_append, List.map_map]
  congr 1
  · apply congrArg List.sum
    apply List.map_congr_left
    intro i hi
    have hi2 : i < N1 := List.mem_range.mp hi
    rw [List.getD_append asg1 asg2 0 i (by omega)]
  · apply congrArg List.sum
    apply List.map_congr_left
    intro i _
    show (if (asg1 ++ asg2).getD (N1 + i) 0 = b then (1 : Int) else 0) = _
    rw [List.getD_append_right asg1 asg2 0 (N1 + i) (by omega),
      show N1 + i - asg1.length = i from by omega]

/-! ## The claims -/

/-- C1: for every distance matrix with `N` rows and `K ≥ 1` columns, the
assignment produced by the `minimum_index` kernel satisfies, for every point
`i < N`: the assigned index is in `[0, K)`, its distance is minimal in row
`i`, and it is the lowest index attaining that minimum (ties keep the lower
index). -/
theorem minimum_index_assigns_nearest (distances : List ℚ) (out : List Nat)
    (N K np B : Nat) (hK : 1 ≤ K) (hd : distances.length = N * K)
    (hlen : out.length = N) (hcov : N ≤ B * np) :
    ∀ i, i < N →
      (minimum_index distances out K np N B).getD i 0 < K ∧
      (∀ c, c < K →
        distances.getD (i * K + (minimum_index distances out K np N B).getD i 0) 0 ≤
          distances.getD (i * K + c) 0) ∧
      (∀ j, j < (minimum_index distances out K np N B).getD i 0 →
        distances.getD (i * K + (minimum_index distances out K np N B).getD i 0) 0 <
          distances.getD (i * K + j) 0) := by
  intro i hi
  have hg : (minimum_index distances out K np N B).getD i 0 = minIndexRow distances K i := by
    rw [minimum_index_getD, if_pos ⟨by omega, by omega⟩]
  rw [hg]
  exact minIndexRow_spec distances K i hK

/-- Witness for C1 at the spec example distance matrix `[[0,300],[300,0]]`. -/
theorem minimum_index_assigns_nearest_witness :
    (1 ≤ 2 ∧ ([0, 300, 300, 0] : List ℚ).length = 2 * 2 ∧
      ([0, 0] : List Nat).length = 2 ∧ 2 ≤ 1 * 2) ∧
    (∀ i, i < 2 →
      (minimum_index [0, 300, 300, 0] [0, 0] 2 2 2 1).getD i 0 < 2 ∧
      (∀ c, c < 2 →
        ([0, 300, 300, 0] : List ℚ).getD
            (i * 2 + (minimum_index [0, 300, 300, 0] [0, 0] 2 2 2 1).getD i 0) 0 ≤
          ([0, 300, 300, 0] : List ℚ).getD (i * 2 + c) 0) ∧
      (∀ j, j < (minimum_index [0, 300, 300, 0] [0, 0] 2 2 2 1).getD i 0 →
        ([0, 300, 300, 0] : List ℚ).getD
            (i * 2 + (minimum_index [0, 300, 300, 0] [0, 0] 2 2 2 1).getD i 0) 0 <
          ([0, 300, 300, 0] : List ℚ).getD (i * 2 + j) 0)) :=
  ⟨⟨by decide, rfl, rfl, by decide⟩,
   minimum_index_assigns_nearest [0, 300, 300, 0] [0, 0] 2 2 2 1
     (by decide) rfl rfl (by decide)⟩

/-- C4: the cumulative-difference metric equals the sum of absolute values of
the running leading sums of the per-bin differences; in particular with
`DIM = 3`, the distance from `(1,2,3)` to `(1,2,3)` is `0` and from `(3,2,1)`
to `(1,2,3)` is `4`. -/
theorem wasserstein_cumulative_formula :
    (∀ (hole mound : List ℚ) (m SIZE : Nat),
      wasserstein_distance hole mound m SIZE =
        ∑ i ∈ Finset.range SIZE,
          |∑ j ∈ Finset.range (i + 1), (hole.getD j 0 - mound.getD (m * SIZE + j) 0)|) ∧
    wasserstein_distance [1, 2, 3] [1, 2, 3] 0 3 = 0 ∧
    wasserstein_distance [3, 2, 1] [1, 2, 3] 0 3 = 4 :=
  ⟨wasserstein_distance_eq_sum,
   by norm_num [wasserstein_distance, runningSums, List.range_succ],
   by norm_num [wasserstein_distance, runningSums, List.range_succ]⟩

/-- C6: with `K = 0` the `assign` operation fails with `InvalidClusterCount`
before any kernel work, producing no assignment output at all. -/
theorem assign_rejects_zero_clusters (distances : List ℚ) (N : Nat) :
    assign distances N 0 = Except.error "InvalidClusterCount" := rfl

/-- C8: the squared-Euclidean metric is non-negative, and it is zero exactly
when point and centroid agree element-wise. -/
theorem euclideanSq_nonneg_zero_iff (p c : List ℚ) (SIZE : Nat)
    (hp : p.length = SIZE) (hc : c.length = SIZE) :
    0 ≤ euclideanSq p c SIZE 0 0 ∧ (euclideanSq p c SIZE 0 0 = 0 ↔ p = c) := by
  have hsum := euclideanSq_eq_sum p c SIZE 0 0
  simp only [Nat.zero_mul, Nat.zero_add] at hsum
  constructor
  · rw [hsum]
    exact Finset.sum_nonneg fun i _ => mul_self_nonneg _
  · rw [hsum, Finset.sum_eq_zero_iff_of_nonneg fun i _ => mul_self_nonneg _]
    constructor
    · intro h
      apply List.ext_getElem (by omega)
      intro n h1 h2
      have hn : n < SIZE := by omega
      have h3 := h n (Finset.mem_range.mpr hn)
      rw [mul_self_eq_zero, sub_eq_zero] at h3
      rwa [List.getD_eq_getElem p 0 h1, List.getD_eq_getElem c 0 h2] at h3
    · intro h i _
      rw [h, sub_self, zero_mul]

/-- Witness for C8 at a concrete equal pair. -/
theorem euclideanSq_nonneg_zero_iff_witness :
    (([1, 2, 3] : List ℚ).length = 3 ∧ ([1, 2, 3] : List ℚ).length = 3) ∧
    (0 ≤ euclideanSq [1, 2, 3] [1, 2, 3] 3 0 0 ∧
      (euclideanSq [1, 2, 3] [1, 2, 3] 3 0 0 = 0 ↔ ([1, 2, 3] : List ℚ) = [1, 2, 3])) :=
  ⟨⟨rfl, rfl⟩, euclideanSq_nonneg_zero_iff [1, 2, 3] [1, 2, 3] 3 rfl rfl⟩

/-- C9: the cumulative-difference metric is symmetric in point and centroid. -/
theorem wasserstein_symmetric (p c : List ℚ) (SIZE : Nat) :
    wasserstein_distance p c 0 SIZE = wasserstein_distance c p 0 SIZE := by
  rw [wasserstein_distance_eq_sum, wasserstein_distance_eq_sum]
  apply Finset.sum_congr rfl
  intro i _
  have h : ∑ j ∈ Finset.range (i + 1), (c.getD j 0 - p.getD (0 * SIZE + j) 0) =
      -(∑ j ∈ Finset.range (i + 1), (p.getD j 0 - c.getD (0 * SIZE + j) 0)) := by
    rw [← Finset.sum_neg_distrib]
    apply Finset.sum_congr rfl
    intro j _
    simp only [Nat.zero_mul, Nat.zero_add]
    ring
  rw [h, abs_neg]

/-- C10: accumulating an empty point set (`N = 0`) leaves the caller-owned
sums and counts buffers exactly unchanged. -/
theorem sum_by_group_empty_identity (pts : List ℚ) (asg : List Int) (SIZE K : Nat)
    (cs : List ℚ) (cn : List Int) :
    sum_by_group pts asg SIZE 0 K cs cn = (cs, cn) := by
  have hz1 : ∀ (b : Int) (f : Nat), clusterFeatureSum pts asg SIZE 0 b f = 0 := fun _ _ => rfl
  have hz2 : ∀ b : Int, clusterCount asg 0 b = 0 := fun _ => rfl
  apply Prod.ext
  · apply list_eq_of_getD 0 ((sum_by_group_lengths pts asg SIZE 0 K cs cn).1)
    intro j
    rcases Nat.lt_or_ge j (K * SIZE) with hj | hj
    · have hS : 0 < SIZE := by
        rcases Nat.eq_zero_or_pos SIZE with h | h
        · exfalso
          rw [h, Nat.mul_zero] at hj
          omega
        · exact h
      have hf : j % SIZE < SIZE := Nat.mod_lt _ hS
      have hbl : j / SIZE < K := by
        rw [Nat.div_lt_iff_lt_mul hS]
        exact hj
      have hrepr : (j / SIZE) * SIZE + j % SIZE = j := by
        rw [Nat.mul_comm]
        exact Nat.div_add_mod j SIZE
      rw [← hrepr, sum_by_group_fst_getD pts asg SIZE 0 K cs cn _ _ hbl hf, hz1, add_zero]
      split_ifs <;> rfl
    · rw [sum_by_group_fst_untouched pts asg SIZE 0 K cs cn j hj]
  · apply list_eq_of_getD 0 ((sum_by_group_lengths pts asg SIZE 0 K cs cn).2)
    intro j
    rcases Nat.lt_or_ge j K with hj | hj
    · rw [sum_by_group_snd_getD pts asg SIZE 0 K cs cn j hj, hz2, add_zero]
      split_ifs <;> rfl
    · rw [sum_by_group_snd_untouched pts asg SIZE 0 K cs cn j hj]

/-- C2: one `sum_by_group` launch adds into the caller-owned buffers, for each
cluster `c < K`, the element-wise feature totals of exactly the points
assigned to `c` and their count. -/
theorem sum_by_group_accumulates (pts : List ℚ) (asg : List Int) (SIZE N K : Nat)
    (cs : List ℚ) (cn : List Int) (hs : cs.length = K * SIZE) (hc : cn.length = K) :
    ∀ c, c < K →
      (∀ f, f < SIZE →
        (sum_by_group pts asg SIZE N K cs cn).1.getD (c * SIZE + f) 0 =
          cs.getD (c * SIZE + f) 0 + clusterFeatureSum pts asg SIZE N (c : Int) f) ∧
      (sum_by_group pts asg SIZE N K cs cn).2.getD c 0 =
        cn.getD c 0 + clusterCount asg N (c : Int) := by
  intro c hcK
  constructor
  · intro f hf
    have hfact : c * SIZE + f < K * SIZE := by
      have hle : (c + 1) * SIZE ≤ K * SIZE := Nat.mul_le_mul_right SIZE hcK
      have he : (c + 1) * SIZE = c * SIZE + SIZE := by ring
      omega
    rw [sum_by_group_fst_getD pts asg SIZE N K cs cn c f hcK hf, if_pos (by omega)]
  · rw [sum_by_group_snd_getD pts asg SIZE N K cs cn c hcK, if_pos (by omega)]

/-- Witness for C2 at the spec example (`DIM = 3`, `K = 2`, points
`(0,0,0)` and `(10,10,10)`, assignments `[0,1]`), including the example's
accumulated sums `(0,0,0),(10,10,10)` and counts `1,1`. -/
theorem sum_by_group_accumulates_witness :
    ((List.replicate 6 (0 : ℚ)).length = 2 * 3 ∧ (List.replicate 2 (0 : Int)).length = 2) ∧
    (∀ c, c < 2 →
      (∀ f, f < 3 →
        (sum_by_group [0, 0, 0, 10, 10, 10] [0, 1] 3 2 2 (List.replicate 6 0)
            (List.replicate 2 0)).1.getD (c * 3 + f) 0 =
          (List.replicate 6 (0 : ℚ)).getD (c * 3 + f) 0 +
            clusterFeatureSum [0, 0, 0, 10, 10, 10] [0, 1] 3 2 (c : Int) f) ∧
      (sum_by_group [0, 0, 0, 10, 10, 10] [0, 1] 3 2 2 (List.replicate 6 0)
          (List.replicate 2 0)).2.getD c 0 =
        (List.replicate 2 (0 : Int)).getD c 0 + clusterCount [0, 1] 2 (c : Int)) ∧
    sum_by_group [0, 0, 0, 10, 10, 10] [0, 1] 3 2 2 (List.replicate 6 0)
        (List.replicate 2 0) =
      ([0, 0, 0, 10, 10, 10], [1, 1]) :=
  ⟨⟨rfl, rfl⟩,
   sum_by_group_accumulates [0, 0, 0, 10, 10, 10] [0, 1] 3 2 2 (List.replicate 6 0)
     (List.replicate 2 0) rfl rfl,
   by norm_num [sum_by_group, sumByGroupUnit, sumByGroupLocal, List.range_succ,
     List.replicate]⟩

/-- C3: accumulation only adds, so accumulating two halves of a point set one
after the other into zero-initialized buffers equals accumulating the whole
point set at once. -/
theorem sum_by_group_merge_additive (pts1 pts2 : List ℚ) (asg1 asg2 : List Int)
    (SIZE N1 N2 K : Nat) (hp1 : pts1.length = N1 * SIZE) (ha1 : asg1.length = N1) :
    sum_by_group pts2 asg2 SIZE N2 K
        (sum_by_group pts1 asg1 SIZE N1 K (List.replicate (K * SIZE) 0)
          (List.replicate K 0)).1
        (sum_by_group pts1 asg1 SIZE N1 K (List.replicate (K * SIZE) 0)
          (List.replicate K 0)).2 =
    sum_by_group (pts1 ++ pts2) (asg1 ++ asg2) SIZE (N1 + N2) K
        (List.replicate (K * SIZE) 0) (List.replicate K 0) := by
  have hzs : (List.replicate (K * SIZE) (0 : ℚ)).length = K * SIZE :=
    List.length_replicate _ _
  have hzc : (List.replicate K (0 : Int)).length = K := List.length_replicate _ _
  have hr1f : (sum_by_group pts1 asg1 SIZE N1 K (List.replicate (K * SIZE) 0)
      (List.replicate K 0)).1.length = K * SIZE := by
    rw [(sum_by_group_lengths pts1 asg1 SIZE N1 K _ _).1, hzs]
  have hr1c : (sum_by_group pts1 asg1 SIZE N1 K (List.replicate (K * SIZE) 0)
      (List.replicate K 0)).2.length = K := by
    rw [(sum_by_group_lengths pts1 asg1 SIZE N1 K _ _).2, hzc]
  apply Prod.ext
  · apply list_eq_of_getD 0
      (by rw [(sum_by_group_lengths pts2 asg2 SIZE N2 K _ _).1, hr1f,
        (sum_by_group_lengths (pts1 ++ pts2) (asg1 ++ asg2) SIZE (N1 + N2) K _ _).1, hzs])
    intro j
    rcases Nat.lt_or_ge j (K * SIZE) with hj | hj
    · have hS : 0 < SIZE := by
        rcases Nat.eq_zero_or_pos SIZE with h | h
        · exfalso
          rw [h, Nat.mul_zero] at hj
          omega
        · exact h
      have hf : j % SIZE < SIZE := Nat.mod_lt _ hS
      have hbl : j / SIZE < K := by
        rw [Nat.div_lt_iff_lt_mul hS]
        exact hj
      have hrepr : (j / SIZE) * SIZE + j % SIZE = j := by
        rw [Nat.mul_comm]
        exact Nat.div_add_mod j SIZE
      rw [← hrepr,
        sum_by_group_fst_getD pts2 asg2 SIZE N2 K _ _ _ _ hbl hf, if_pos (by omega),
        sum_by_group_fst_getD pts1 asg1 SIZE N1 K _ _ _ _ hbl hf, if_pos (by omega),
        sum_by_group_fst_getD (pts1 ++ pts2) (asg1 ++ asg2) SIZE (N1 + N2) K _ _ _ _ hbl hf,
        if_pos (by omega),
        clusterFeatureSum_append pts1 pts2 asg1 asg2 SIZE N1 N2 _ _ hf hp1 ha1]
      ring
    · rw [sum_by_group_fst_untouched pts2 asg2 SIZE N2 K _ _ j hj,
        sum_by_group_fst_untouched pts1 asg1 SIZE N1 K _ _ j hj,
        sum_by_group_fst_untouched (pts1 ++ pts2) (asg1 ++ asg2) SIZE (N1 + N2) K _ _ j hj]
  · apply list_eq_of_getD 0
      (by rw [(sum_by_group_lengths pts2 asg2 SIZE N2 K _ _).2, hr1c,
        (sum_by_group_lengths (pts1 ++ pts2) (asg1 ++ asg2) SIZE (N1 + N2) K _ _).2, hzc])
    intro j
    rcases Nat.lt_or_ge j K with hj | hj
    · rw [sum_by_group_snd_getD pts2 asg2 SIZE N2 K _ _ j hj, if_pos (by omega),
        sum_by_group_snd_getD pts1 asg1 SIZE N1 K _ _ j hj, if_pos (by omega),
        sum_by_group_snd_getD (pts1 ++ pts2) (asg1 ++ asg2) SIZE (N1 + N2) K _ _ j hj,
        if_pos (by omega),
        clusterCount_append asg1 asg2 N1 N2 _ ha1]
      ring
    · rw [sum_by_group_snd_untouched pts2 asg2 SIZE N2 K _ _ j hj,
        sum_by_group_snd_untouched pts1 asg1 SIZE N1 K _ _ j hj,
        sum_by_group_snd_untouched (pts1 ++ pts2) (asg1 ++ asg2) SIZE (N1 + N2) K _ _ j hj]

/-- Witness for C3 at the spec example split into its two points. -/
theorem sum_by_group_merge_additive_witness :
    (([0, 0, 0] : List ℚ).length = 1 * 3 ∧ ([0] : List Int).length = 1) ∧
    sum_by_group [10, 10, 10] [1] 3 1 2
        (sum_by_group [0, 0, 0] [0] 3 1 2 (List.replicate (2 * 3) 0)
          (List.replicate 2 0)).1
        (sum_by_group [0, 0, 0] [0] 3 1 2 (List.replicate (2 * 3) 0)
          (List.replicate 2 0)).2 =
      sum_by_group ([0, 0, 0] ++ [10, 10, 10]) ([0] ++ [1]) 3 (1 + 1) 2
        (List.replicate (2 * 3) 0) (List.replicate 2 0) :=
  ⟨⟨rfl, rfl⟩,
   sum_by_group_merge_additive [0, 0, 0] [10, 10, 10] [0] [1] 3 1 1 2 rfl rfl⟩

/-- C5: chunking does not change output — any chunk-size partition whose
blocks cover the point index space produces exactly the distance matrix and
assignment vector of the single-chunk computation, for every metric, and a
unit whose start lies at or beyond `N` does no work. -/
theorem chunking_invariance (metric : Nat → Nat → ℚ) (distances : List ℚ)
    (N K np B : Nat) (dist0 dist1 : List ℚ) (out0 out1 : List Nat)
    (hK : 0 < K) (hcov : N ≤ B * np)
    (h0 : dist0.length = N * K) (h1 : dist1.length = N * K)
    (g0 : out0.length = N) (g1 : out1.length = N) :
    distancesKernel metric K np N B dist0 = distancesKernel metric K N N 1 dist1 ∧
    minimum_index distances out0 K np N B = minimum_index distances out1 K N N 1 ∧
    ∀ b, N ≤ b * np →
      distancesUnit metric K np N b dist0 = dist0 ∧
      minimumIndexUnit distances out0 K np N b = out0 := by
  refine ⟨?_, ?_, ?_⟩
  · apply list_eq_of_getD 0
      (by rw [distancesKernel_length, distancesKernel_length, h0, h1])
    intro j
    rcases Nat.lt_or_ge j (N * K) with hj | hj
    · have hc : j % K < K := Nat.mod_lt _ hK
      have hbl : j / K < N := by
        rw [Nat.div_lt_iff_lt_mul hK]
        exact hj
      have hrepr : (j / K) * K + j % K = j := by
        rw [Nat.mul_comm]
        exact Nat.div_add_mod j K
      rw [← hrepr,
        distancesKernel_getD metric K np N B hK (j / K) (j % K) hc dist0,
        distancesKernel_getD metric K N N 1 hK (j / K) (j % K) hc dist1,
        if_pos ⟨by omega, by omega⟩]
      have e1 : 1 * N = N := Nat.one_mul N
      rw [if_pos ⟨by omega, by omega⟩]
    · rw [List.getD_eq_default _ _ (by rw [distancesKernel_length, h0]; omega),
        List.getD_eq_default _ _ (by rw [distancesKernel_length, h1]; omega)]
  · apply list_eq_of_getD 0
      (by rw [minimum_index_length, minimum_index_length, g0, g1])
    intro j
    rw [minimum_index_getD distances out0 K np N B j,
      minimum_index_getD distances out1 K N N 1 j]
    have e1 : 1 * N = N := Nat.one_mul N
    rcases Nat.lt_or_ge j N with hj | hj
    · rw [if_pos ⟨by omega, by omega⟩, if_pos ⟨by omega, by omega⟩]
    · rw [if_neg (by omega), if_neg (by omega),
        List.getD_eq_default _ _ (by omega), List.getD_eq_default _ _ (by omega)]
  · intro b hb
    constructor
    · unfold distancesUnit
      rw [show min (b * np + np) N - b * np = 0 from by omega,
        show List.range' (b * np) 0 = [] from rfl, List.foldl_nil]
    · unfold minimumIndexUnit
      rw [show min (b * np + np) N - b * np = 0 from by omega,
        show List.range' (b * np) 0 = [] from rfl, List.foldl_nil]

/-- Witness for C5 at the spec example with chunk size 1 against one chunk. -/
theorem chunking_invariance_witness :
    (0 < 2 ∧ 2 ≤ 2 * 1 ∧ (List.replicate 4 (0 : ℚ)).length = 2 * 2 ∧
      (List.replicate 4 (0 : ℚ)).length = 2 * 2 ∧ ([0, 0] : List Nat).length = 2 ∧
      ([0, 0] : List Nat).length = 2) ∧
    (distancesKernel (euclideanSq [0, 0, 0, 10, 10, 10] [0, 0, 0, 10, 10, 10] 3) 2 1 2 2
        (List.replicate 4 0) =
      distancesKernel (euclideanSq [0, 0, 0, 10, 10, 10] [0, 0, 0, 10, 10, 10] 3) 2 2 2 1
        (List.replicate 4 0) ∧
      minimum_index [0, 300, 300, 0] [0, 0] 2 1 2 2 =
        minimum_index [0, 300, 300, 0] [0, 0] 2 2 2 1 ∧
      ∀ b, 2 ≤ b * 1 →
        distancesUnit (euclideanSq [0, 0, 0, 10, 10, 10] [0, 0, 0, 10, 10, 10] 3) 2 1 2 b
            (List.replicate 4 0) = List.replicate 4 0 ∧
          minimumIndexUnit [0, 300, 300, 0] [0, 0] 2 1 2 b = [0, 0]) :=
  ⟨⟨by decide, by decide, rfl, rfl, rfl, rfl⟩,
   chunking_invariance (euclideanSq [0, 0, 0, 10, 10, 10] [0, 0, 0, 10, 10, 10] 3)
     [0, 300, 300, 0] 2 2 1 2 (List.replicate 4 0) (List.replicate 4 0) [0, 0] [0, 0]
     (by decide) (by decide) rfl rfl rfl rfl⟩

/-- C7: an assignment value outside `[0, K)` makes `accumulate` fail with
`IndexOutOfRange` instead of returning a result that silently skipped the
offending points. -/
theorem accumulate_rejects_out_of_range (pts : List ℚ) (asg : List Int) (SIZE N K : Nat)
    (cs : List ℚ) (cn : List Int) (h : ∃ a ∈ asg, a < 0 ∨ (K : Int) ≤ a) :
    accumulate pts asg SIZE N K cs cn = Except.error "IndexOutOfRange" := by
  have hany : asg.any (fun a => decide (a < 0) || decide ((K : Int) ≤ a)) = true := by
    rw [List.any_eq_true]
    obtain ⟨a, ha, hcase⟩ := h
    refine ⟨a, ha, ?_⟩
    rcases hcase with h1 | h1 <;> simp [h1]
  unfold accumulate
  rw [if_pos hany]

/-- Witness for C7 at the out-of-range assignment value `5` with `K = 2`. -/
theorem accumulate_rejects_out_of_range_witness :
    (∃ a ∈ ([5] : List Int), a < 0 ∨ (2 : Int) ≤ a) ∧
    accumulate [] [5] 3 1 2 [] [] = Except.error "IndexOutOfRange" :=
  ⟨⟨5, by simp, Or.inr (by decide)⟩,
   accumulate_rejects_out_of_range [] [5] 3 1 2 [] [] ⟨5, by simp, Or.inr (by decide)⟩⟩

end Meanings
